import Mathlib

/-!
Verification development for the DropVault real-time collaboration subsystem.

The relay (`src/server.js`) keeps an in-memory registry `roomData :
Map roomId → { files : Map fileName → Set socketId, sockets : Map socketId →
{ currentFiles : Set fileName } }` and routes yjs updates, sync requests and
final-save signals.  The sync client (`src/components/CollabEditor.tsx`)
owns a Yjs document per open file and a debounced persistence path.

JavaScript `Map`s are embedded as association lists (first-occurrence lookup,
in-place replacement on `set`, full removal on `delete`) and `Set`s of strings
as duplicate-free lists (append on `add`, filter on `delete`), preserving
insertion order exactly as the JS runtime does.
-/

namespace DropVault

/-- Association list embedding a JavaScript `Map` with string keys. -/
abbrev AListM (β : Type) := List (String × β)

/-- List embedding a JavaScript `Set` of strings (insertion order kept). -/
abbrev SetS := List String

/-- `Map.get` (also `Map.has` via `Option.isSome`): first matching entry. -/
def alLookup {β : Type} (k : String) : AListM β → Option β
  | [] => none
  | (k', v) :: rest => if k' = k then some v else alLookup k rest

/-- `Map.set`: replace the first entry with key `k`, else append at the end. -/
def alInsert {β : Type} (k : String) (v : β) : AListM β → AListM β
  | [] => [(k, v)]
  | (k', v') :: rest => if k' = k then (k, v) :: rest else (k', v') :: alInsert k v rest

/-- `Map.delete`: remove every entry with key `k`. -/
def alErase {β : Type} (k : String) (l : AListM β) : AListM β :=
  l.filter (fun p => p.1 ≠ k)

/-- Keys of the map, in order. -/
def alKeys {β : Type} (l : AListM β) : List String := l.map Prod.fst

/-- `Set.add`: append if not already present. -/
def setAdd (x : String) (s : SetS) : SetS := if x ∈ s then s else s ++ [x]

/-- `Set.delete`: remove the element. -/
def setDel (x : String) (s : SetS) : SetS := s.filter (fun y => y ≠ x)

@[simp] theorem alLookup_nil {β : Type} (k : String) : alLookup (β := β) k [] = none := rfl

@[simp] theorem alLookup_cons {β : Type} (k k' : String) (v : β) (l : AListM β) :
    alLookup k ((k', v) :: l) = if k' = k then some v else alLookup k l := rfl

@[simp] theorem alLookup_alInsert_self {β : Type} (k : String) (v : β) (l : AListM β) :
    alLookup k (alInsert k v l) = some v := by
  induction l with
  | nil => simp [alInsert]
  | cons p rest ih =>
    obtain ⟨k', v'⟩ := p
    by_cases h : k' = k <;> simp [alInsert, h, ih]

theorem alLookup_alInsert_ne {β : Type} {k k' : String} (v : β) (l : AListM β)
    (h : k ≠ k') : alLookup k (alInsert k' v l) = alLookup k l := by
  have h' : k' ≠ k := Ne.symm h
  induction l with
  | nil => simp [alInsert, alLookup, h']
  | cons p rest ih =>
    obtain ⟨k₀, v₀⟩ := p
    by_cases h0 : k₀ = k'
    · subst h0
      simp [alInsert, alLookup, h']
    · simp only [alInsert, alLookup, h0, if_false]
      by_cases h1 : k₀ = k <;> simp [alLookup, h1, ih]

theorem alInsert_lookup_eq {β : Type} {k : String} {v : β} {l : AListM β}
    (h : alLookup k l = some v) : alInsert k v l = l := by
  induction l with
  | nil => simp [alLookup] at h
  | cons p rest ih =>
    obtain ⟨k₀, v₀⟩ := p
    by_cases h0 : k₀ = k
    · subst h0
      simp [alLookup] at h
      simp [alInsert, h]
    · simp [alLookup, h0] at h
      simp [alInsert, h0, ih h]

theorem alErase_cons {β : Type} (k k₀ : String) (v₀ : β) (rest : AListM β) :
    alErase k ((k₀, v₀) :: rest) =
      if k₀ = k then alErase k rest else (k₀, v₀) :: alErase k rest := by
  by_cases h0 : k₀ = k <;> simp [alErase, List.filter_cons, h0]

@[simp] theorem alLookup_alErase_self {β : Type} (k : String) (l : AListM β) :
    alLookup k (alErase k l) = none := by
  induction l with
  | nil => rfl
  | cons p rest ih =>
    obtain ⟨k₀, v₀⟩ := p
    rw [alErase_cons]
    by_cases h0 : k₀ = k <;> simp [h0, alLookup, ih]

theorem alLookup_alErase_ne {β : Type} {k k' : String} (l : AListM β)
    (h : k ≠ k') : alLookup k (alErase k' l) = alLookup k l := by
  induction l with
  | nil => rfl
  | cons p rest ih =>
    obtain ⟨k₀, v₀⟩ := p
    rw [alErase_cons]
    by_cases h0 : k₀ = k'
    · subst h0
      simp [alLookup, Ne.symm h, ih]
    · by_cases h1 : k₀ = k <;> simp [alLookup, h0, h1, h, ih]

theorem setAdd_ne_nil (x : String) (s : SetS) : setAdd x s ≠ [] := by
  unfold setAdd
  split
  · rename_i h
    intro hnil
    subst hnil
    simp at h
  · simp

theorem mem_setAdd {x y : String} {s : SetS} : y ∈ setAdd x s ↔ y ∈ s ∨ y = x := by
  unfold setAdd
  split <;> rename_i h
  · constructor
    · exact Or.inl
    · rintro (hy | rfl)
      · exact hy
      · exact h
  · simp

theorem mem_setDel {x y : String} {s : SetS} : y ∈ setDel x s ↔ y ∈ s ∧ y ≠ x := by
  unfold setDel
  simp

theorem setAdd_nodup {x : String} {s : SetS} (h : s.Nodup) : (setAdd x s).Nodup := by
  unfold setAdd
  split
  · exact h
  · rename_i hx
    simpa [List.nodup_append] using ⟨h, hx⟩

theorem setDel_nodup {x : String} {s : SetS} (h : s.Nodup) : (setDel x s).Nodup :=
  List.Nodup.filter _ h

theorem setDel_eq_nil_iff {x : String} {s : SetS} :
    setDel x s = [] ↔ ∀ y ∈ s, y = x := by
  unfold setDel
  simp [List.filter_eq_nil_iff]

theorem setAdd_eq_of_mem {x : String} {s : SetS} (h : x ∈ s) : setAdd x s = s := by
  unfold setAdd
  exact if_pos h

theorem alLookup_mem {β : Type} {k : String} {v : β} {l : AListM β}
    (h : alLookup k l = some v) : (k, v) ∈ l := by
  induction l with
  | nil => simp [alLookup] at h
  | cons p rest ih =>
    obtain ⟨k₀, v₀⟩ := p
    by_cases h0 : k₀ = k
    · subst h0
      simp [alLookup] at h
      simp [h]
    · simp [alLookup, h0] at h
      exact List.mem_cons_of_mem _ (ih h)

theorem alLookup_eq_none_iff {β : Type} {k : String} {l : AListM β} :
    alLookup k l = none ↔ k ∉ alKeys l := by
  induction l with
  | nil => simp [alLookup, alKeys]
  | cons p rest ih =>
    obtain ⟨k₀, v₀⟩ := p
    by_cases h0 : k₀ = k <;> simp [alLookup, alKeys, h0, ih] at ih ⊢ <;> tauto

theorem mem_alKeys_of_lookup {β : Type} {k : String} {v : β} {l : AListM β}
    (h : alLookup k l = some v) : k ∈ alKeys l := by
  by_contra hk
  rw [← alLookup_eq_none_iff] at hk
  rw [hk] at h
  exact Option.noConfusion h

theorem mem_alKeys_alInsert {β : Type} {x k : String} {v : β} {l : AListM β} :
    x ∈ alKeys (alInsert k v l) ↔ x ∈ alKeys l ∨ x = k := by
  induction l with
  | nil => simp [alInsert, alKeys]
  | cons p rest ih =>
    obtain ⟨k₀, v₀⟩ := p
    by_cases h0 : k₀ = k
    · subst h0
      simp [alInsert, alKeys]
      tauto
    · simp [alInsert, alKeys, h0] at ih ⊢
      tauto

@[simp] theorem alKeys_nil {β : Type} : alKeys ([] : AListM β) = [] := rfl

@[simp] theorem alKeys_cons {β : Type} (p : String × β) (l : AListM β) :
    alKeys (p :: l) = p.1 :: alKeys l := rfl

theorem alKeys_alInsert_nodup {β : Type} {k : String} {v : β} {l : AListM β}
    (h : (alKeys l).Nodup) : (alKeys (alInsert k v l)).Nodup := by
  induction l with
  | nil => simp [alInsert, alKeys]
  | cons p rest ih =>
    obtain ⟨k₀, v₀⟩ := p
    rw [alKeys_cons, List.nodup_cons] at h
    by_cases h0 : k₀ = k
    · subst h0
      have heq : alKeys (alInsert k₀ v ((k₀, v₀) :: rest)) = k₀ :: alKeys rest := by
        simp [alInsert, alKeys]
      rw [heq]
      exact List.nodup_cons.2 h
    · have hih := ih h.2
      have hk₀ : k₀ ∉ alKeys (alInsert k v rest) := by
        intro hx
        rcases mem_alKeys_alInsert.1 hx with hh | hh
        · exact h.1 hh
        · exact h0 hh
      have heq : alKeys (alInsert k v ((k₀, v₀) :: rest)) =
          k₀ :: alKeys (alInsert k v rest) := by
        simp [alInsert, h0, alKeys]
      rw [heq]
      exact List.nodup_cons.2 ⟨hk₀, hih⟩

theorem alErase_ne_nil_of_lookup {β : Type} {s sid : String} {v : β} {l : AListM β}
    (h : alLookup s l = some v) (hne : s ≠ sid) : alErase sid l ≠ [] := by
  intro hnil
  have hmem : (s, v) ∈ alErase sid l := by
    simp [alErase, List.mem_filter]
    exact ⟨alLookup_mem h, hne⟩
  rw [hnil] at hmem
  exact List.not_mem_nil _ hmem

theorem mem_getD_nil {s : String} {o : Option SetS} (h : s ∈ o.getD []) :
    ∃ es, o = some es ∧ s ∈ es := by
  cases o with
  | none => simp at h
  | some es => exact ⟨es, rfl, by simpa using h⟩

/-! ## Relay registry (`src/server.js`)

`roomData : Map roomId → { files, sockets }`; handlers `join-file`,
`leave-file`, `disconnect` mutate it and emit `save-final` signals.
Emissions are returned as `(roomId, fileName)` pairs. -/

/-- One entry of `roomData`: `files : fileName → Set socketId`,
`sockets : socketId → currentFiles : Set fileName` (the `socketId` field of
the per-socket record is redundant with its key and omitted). -/
structure RoomR where
  files : AListM SetS
  sockets : AListM SetS
deriving DecidableEq, Repr

/-- The whole `roomData` map. -/
abbrev ServerState := AListM RoomR

/-- Current editor set of `(roomId, fileName)` as the relay sees it. -/
def editors (st : ServerState) (r f : String) : SetS :=
  match alLookup r st with
  | none => []
  | some room => (alLookup f room.files).getD []

/-- `join-file` handler (server.js:40-64): `getRoomData` creates the room if
absent; the socket is added to `room.sockets` (fresh `currentFiles` if new),
the file's editor set is created if absent and the socket added to it, and
the file added to the socket's `currentFiles`.  No signal is emitted. -/
def joinFile (st : ServerState) (sid r f : String) : ServerState :=
  let room := (alLookup r st).getD ⟨[], []⟩
  let es := (alLookup f room.files).getD []
  let cf := (alLookup sid room.sockets).getD []
  let files' := alInsert f (setAdd sid es) room.files
  let sockets' := alInsert sid (setAdd f cf) room.sockets
  alInsert r ⟨files', sockets'⟩ st

/-- `leave-file` handler (server.js:67-89): if the room exists, the socket is
deleted from the file's editor set; when that set becomes empty the file entry
is deleted and one `save-final` for `(roomId, fileName)` is emitted; the file
is removed from the socket's `currentFiles`.  The socket stays in
`room.sockets` and the room is not cleaned up here. -/
def leaveFile (st : ServerState) (sid r f : String) :
    ServerState × List (String × String) :=
  match alLookup r st with
  | none => (st, [])
  | some room =>
    let fe :=
      match alLookup f room.files with
      | none => (room.files, ([] : List (String × String)))
      | some es =>
        let es' := setDel sid es
        if es' = [] then (alErase f room.files, [(r, f)])
        else (alInsert f es' room.files, [])
    let sockets' :=
      match alLookup sid room.sockets with
      | none => room.sockets
      | some cf => alInsert sid (setDel f cf) room.sockets
    (alInsert r ⟨fe.1, sockets'⟩ st, fe.2)

/-- Inner loop of the `disconnect` handler (server.js:150-161): for each file
in the disconnecting socket's `currentFiles`, delete the socket from that
file's editor set; if the set becomes empty, delete the file entry and record
the file name as a `save-final` emission. -/
def discFiles (sid : String) : List String → AListM SetS → AListM SetS × List String
  | [], files => (files, [])
  | g :: rest, files =>
    match alLookup g files with
    | none => discFiles sid rest files
    | some es =>
      let es' := setDel sid es
      if es' = [] then
        let p := discFiles sid rest (alErase g files)
        (p.1, g :: p.2)
      else discFiles sid rest (alInsert g es' files)

/-- Per-room part of the `disconnect` handler (server.js:146-166): rooms not
containing the socket are untouched; otherwise the file loop runs, the socket
is removed from `room.sockets`, and `cleanupRoom` drops the room when its
socket map became empty (`none` result). -/
def discRoom (sid : String) (room : RoomR) : Option RoomR × List String :=
  match alLookup sid room.sockets with
  | none => (some room, [])
  | some cf =>
    let p := discFiles sid cf room.files
    let sockets' := alErase sid room.sockets
    (if sockets' = [] then none else some ⟨p.1, sockets'⟩, p.2)

/-- `disconnect` handler (server.js:141-168): iterate over every room. -/
def disconnect : ServerState → String → ServerState × List (String × String)
  | [], _ => ([], [])
  | (r, room) :: rest, sid =>
    let q := discRoom sid room
    let p := disconnect rest sid
    let here := q.2.map (fun f => (r, f))
    match q.1 with
    | none => (p.1, here ++ p.2)
    | some room' => ((r, room') :: p.1, here ++ p.2)

/-- The relay events that mutate the registry. -/
inductive Event where
  | join (sid roomId fileName : String)
  | leave (sid roomId fileName : String)
  | disc (sid : String)
deriving DecidableEq, Repr

/-- One registry transition together with its `save-final` emissions. -/
def step (st : ServerState) : Event → ServerState × List (String × String)
  | .join sid r f => (joinFile st sid r f, [])
  | .leave sid r f => leaveFile st sid r f
  | .disc sid => disconnect st sid

/-- Registry reached from the relay's initial empty `roomData` by a
sequence of events. -/
def run (tr : List Event) : ServerState :=
  tr.foldl (fun st e => (step st e).1) []

/-- `yjs-update` handler (server.js:111-122): if the room and the file's
editor set exist, emit the operation to every editor of that exact
`(roomId, fileName)` other than the sender; each emission is
`(targetSocketId, fileName, update)`. -/
def yjsUpdateEmits (st : ServerState) (sid r f : String) (upd : List Nat) :
    List (String × String × List Nat) :=
  match alLookup r st with
  | none => []
  | some room =>
    match alLookup f room.files with
    | none => []
    | some es => (es.filter (fun t => t ≠ sid)).map (fun t => (t, f, upd))

/-- `request-file-sync` handler (server.js:92-108): prompt every other editor
of the file to send its state; each emission is
`(targetSocketId, requester, fileName)`. -/
def requestFileSyncEmits (st : ServerState) (sid r f : String) :
    List (String × String × String) :=
  match alLookup r st with
  | none => []
  | some room =>
    match alLookup f room.files with
    | none => []
    | some es => (es.filter (fun t => t ≠ sid)).map (fun t => (t, sid, f))

/-- `reply-sync` handler (server.js:125-129): if the `to` field is truthy
(non-empty string), unicast the state as a `yjs-update` to that one socket. -/
def replySyncEmits (toSid fileName : String) (upd : List Nat) :
    List (String × String × List Nat) :=
  if toSid ≠ "" then [(toSid, fileName, upd)] else []


/-! ## Registry well-formedness

Invariants of `roomData` maintained by the three handlers: room keys are
distinct; every `currentFiles` set is duplicate-free; every file entry's
editor set is nonempty; every member of a file's editor set is a registered
socket of the room whose `currentFiles` contains that file. -/

/-- Well-formedness of one room entry. -/
structure RoomWF (room : RoomR) : Prop where
  cfNodup : ∀ s cfl, alLookup s room.sockets = some cfl → cfl.Nodup
  editorsNE : ∀ f es, alLookup f room.files = some es → es ≠ []
  consistent : ∀ f es s, alLookup f room.files = some es → s ∈ es →
    ∃ cfl, alLookup s room.sockets = some cfl ∧ f ∈ cfl

/-- Well-formedness of the relay registry. -/
structure WF (st : ServerState) : Prop where
  roomsNodup : (alKeys st).Nodup
  rooms : ∀ r room, alLookup r st = some room → RoomWF room

theorem RoomWF.empty : RoomWF ⟨[], []⟩ := by
  refine ⟨?_, ?_, ?_⟩ <;> intros <;> simp_all [alLookup]

theorem WF.nil : WF [] := by
  refine ⟨List.nodup_nil, ?_⟩
  intros r room h
  simp [alLookup] at h

theorem WF.tail {p : String × RoomR} {rest : ServerState} (h : WF (p :: rest)) :
    WF rest := by
  obtain ⟨r₀, room₀⟩ := p
  have hnd : (alKeys rest).Nodup := (List.nodup_cons.1 h.roomsNodup).2
  have hr₀ : r₀ ∉ alKeys rest := (List.nodup_cons.1 h.roomsNodup).1
  have hlift : ∀ r room, alLookup r rest = some room →
      alLookup r ((r₀, room₀) :: rest) = some room := by
    intro r room hr
    have hne : r₀ ≠ r := by
      intro hEq
      exact hr₀ (hEq ▸ mem_alKeys_of_lookup hr)
    simpa [alLookup, hne] using hr
  exact ⟨hnd, fun r room hr => h.rooms r room (hlift r room hr)⟩

/-- The editor set of any `(r, f)` never shrinks to empty on a join. -/
theorem editors_joinFile_ne_nil {st : ServerState} {sid r₀ f₀ r f : String}
    (h : editors st r f ≠ []) : editors (joinFile st sid r₀ f₀) r f ≠ [] := by
  by_cases hr : r = r₀
  · subst hr
    by_cases hf : f = f₀
    · subst hf
      unfold editors joinFile
      simp only [alLookup_alInsert_self, Option.getD_some]
      exact fun hnil => setAdd_ne_nil _ _ (by simpa using hnil)
    · unfold editors at h ⊢
      unfold joinFile
      simp only [alLookup_alInsert_self, Option.getD_some]
      rw [alLookup_alInsert_ne _ _ hf]
      cases hst : alLookup r st with
      | none => rw [hst] at h; simp at h
      | some room => rw [hst] at h; simpa using h
  · unfold editors at h ⊢
    unfold joinFile
    rw [alLookup_alInsert_ne _ _ hr]
    exact h

/-- Per-step final-save characterization for `join-file`: a join never emits
and never empties an editor set. -/
theorem join_char (st : ServerState) (sid r₀ f₀ r f : String) :
    List.count (r, f) (step st (.join sid r₀ f₀)).2 =
      if editors st r f ≠ [] ∧ editors (step st (.join sid r₀ f₀)).1 r f = []
      then 1 else 0 := by
  rw [if_neg]
  · simp [step]
  · rintro ⟨h1, h2⟩
    exact editors_joinFile_ne_nil h1 h2

/-- State lookup after `leave-file` for a different room is unchanged. -/
theorem leaveFile_lookup_ne (st : ServerState) (sid r₀ f₀ r : String) (hr : r ≠ r₀) :
    alLookup r (leaveFile st sid r₀ f₀).1 = alLookup r st := by
  cases hst : alLookup r₀ st with
  | none => simp [leaveFile, hst]
  | some room =>
    simp only [leaveFile, hst]
    exact alLookup_alInsert_ne _ _ hr

/-- Editors of a different file in the same room are unchanged by `leave-file`. -/
theorem leaveFile_editors_ne_file (st : ServerState) (sid r₀ f₀ f : String)
    (hf : f ≠ f₀) :
    editors (leaveFile st sid r₀ f₀).1 r₀ f = editors st r₀ f := by
  cases hst : alLookup r₀ st with
  | none => simp [leaveFile, hst]
  | some room =>
    unfold editors
    cases hes : alLookup f₀ room.files with
    | none => simp [leaveFile, hst, hes]
    | some es =>
      by_cases hdel : setDel sid es = [] <;>
        simp [leaveFile, hst, hes, hdel, alLookup_alErase_ne _ hf,
          alLookup_alInsert_ne _ _ hf]

/-- Per-step final-save characterization for `leave-file`: one `save-final`
for `(r, f)` is emitted exactly when that file's editor set transitions from
nonempty to empty. -/
theorem leave_char (st : ServerState) (sid r₀ f₀ r f : String) (hwf : WF st) :
    List.count (r, f) (leaveFile st sid r₀ f₀).2 =
      if editors st r f ≠ [] ∧ editors (leaveFile st sid r₀ f₀).1 r f = []
      then 1 else 0 := by
  by_cases hr : r = r₀
  · subst hr
    by_cases hf : f = f₀
    · subst hf
      cases hst : alLookup r st with
      | none =>
        have hb : editors st r f = [] := by unfold editors; rw [hst]
        simp only [leaveFile, hst]
        rw [if_neg]
        · simp
        · rintro ⟨h1, _⟩
          exact h1 hb
      | some room =>
        cases hes : alLookup f room.files with
        | none =>
          have hb : editors st r f = [] := by simp [editors, hst, hes]
          have hemit : (leaveFile st sid r f).2 = [] := by
            simp [leaveFile, hst, hes]
          rw [hemit, if_neg]
          · simp
          · rintro ⟨h1, _⟩
            exact h1 hb
        | some es =>
          have hb : editors st r f = es := by simp [editors, hst, hes]
          have hbn : es ≠ [] := (hwf.rooms r room hst).editorsNE f es hes
          have ha : editors (leaveFile st sid r f).1 r f = setDel sid es := by
            unfold editors
            by_cases hdel : setDel sid es = [] <;>
              simp [leaveFile, hst, hes, hdel]
          by_cases hdel : setDel sid es = []
          · have hemit : (leaveFile st sid r f).2 = [(r, f)] := by
              simp [leaveFile, hst, hes, hdel]
            rw [hemit, if_pos ⟨by rw [hb]; exact hbn, by rw [ha, hdel]⟩]
            simp
          · have hemit : (leaveFile st sid r f).2 = [] := by
              simp [leaveFile, hst, hes, hdel]
            rw [hemit, if_neg]
            · simp
            · rintro ⟨_, h2⟩
              rw [ha] at h2
              exact hdel h2
    · have hedit := leaveFile_editors_ne_file st sid r f₀ f hf
      have hcnt : List.count (r, f) (leaveFile st sid r f₀).2 = 0 := by
        cases hst : alLookup r st with
        | none => simp [leaveFile, hst]
        | some room =>
          cases hes : alLookup f₀ room.files with
          | none => simp [leaveFile, hst, hes]
          | some es =>
            by_cases hdel : setDel sid es = [] <;>
              simp [leaveFile, hst, hes, hdel, List.count_eq_zero, Prod.ext_iff, hf]
      rw [hcnt, if_neg]
      rintro ⟨h1, h2⟩
      rw [hedit] at h2
      exact h1 h2
  · have hedit : editors (leaveFile st sid r₀ f₀).1 r f = editors st r f := by
      unfold editors
      rw [leaveFile_lookup_ne st sid r₀ f₀ r hr]
    have hcnt : List.count (r, f) (leaveFile st sid r₀ f₀).2 = 0 := by
      cases hst : alLookup r₀ st with
      | none => simp [leaveFile, hst]
      | some room =>
        cases hes : alLookup f₀ room.files with
        | none => simp [leaveFile, hst, hes]
        | some es =>
          by_cases hdel : setDel sid es = [] <;>
            simp [leaveFile, hst, hes, hdel, List.count_eq_zero, Prod.ext_iff, hr]
    rw [hcnt, if_neg]
    rintro ⟨h1, h2⟩
    rw [hedit] at h2
    exact h1 h2

/-! Step equations and pointwise characterizations for the disconnect fold. -/

theorem discFiles_cons_none {sid g : String} {files : AListM SetS} (rest : List String)
    (hes : alLookup g files = none) :
    discFiles sid (g :: rest) files = discFiles sid rest files := by
  simp [discFiles, hes]

theorem discFiles_cons_del {sid g : String} {files : AListM SetS} {es : SetS}
    (rest : List String) (hes : alLookup g files = some es)
    (hdel : setDel sid es = []) :
    discFiles sid (g :: rest) files =
      ((discFiles sid rest (alErase g files)).1,
        g :: (discFiles sid rest (alErase g files)).2) := by
  simp [discFiles, hes, hdel]

theorem discFiles_cons_keep {sid g : String} {files : AListM SetS} {es : SetS}
    (rest : List String) (hes : alLookup g files = some es)
    (hdel : setDel sid es ≠ []) :
    discFiles sid (g :: rest) files =
      discFiles sid rest (alInsert g (setDel sid es) files) := by
  simp [discFiles, hes, hdel]

theorem discFiles_lookup_not_mem (sid : String) (cf : List String)
    (files : AListM SetS) (f : String) (h : f ∉ cf) :
    alLookup f (discFiles sid cf files).1 = alLookup f files := by
  induction cf generalizing files with
  | nil => rfl
  | cons g rest ih =>
    have hfg : f ≠ g := fun hEq => h (hEq ▸ List.mem_cons_self g rest)
    have hfr : f ∉ rest := fun hx => h (List.mem_cons_of_mem _ hx)
    cases hes : alLookup g files with
    | none => rw [discFiles_cons_none rest hes]; exact ih _ hfr
    | some es =>
      by_cases hdel : setDel sid es = []
      · rw [discFiles_cons_del rest hes hdel]
        rw [show ((discFiles sid rest (alErase g files)).1,
            g :: (discFiles sid rest (alErase g files)).2).1 =
            (discFiles sid rest (alErase g files)).1 from rfl]
        rw [ih _ hfr, alLookup_alErase_ne _ hfg]
      · rw [discFiles_cons_keep rest hes hdel, ih _ hfr,
          alLookup_alInsert_ne _ _ hfg]

theorem discFiles_lookup_mem (sid : String) (cf : List String)
    (files : AListM SetS) (f : String) (hnd : cf.Nodup) (h : f ∈ cf) :
    alLookup f (discFiles sid cf files).1 =
      match alLookup f files with
      | none => none
      | some es => if setDel sid es = [] then none else some (setDel sid es) := by
  induction cf generalizing files with
  | nil => cases h
  | cons g rest ih =>
    have hgr : g ∉ rest := (List.nodup_cons.1 hnd).1
    have hndr : rest.Nodup := (List.nodup_cons.1 hnd).2
    by_cases hfg : f = g
    · subst hfg
      cases hes : alLookup f files with
      | none =>
        rw [discFiles_cons_none rest hes,
          discFiles_lookup_not_mem sid rest files f hgr, hes]
      | some es =>
        by_cases hdel : setDel sid es = []
        · rw [discFiles_cons_del rest hes hdel]
          rw [show ((discFiles sid rest (alErase f files)).1,
              f :: (discFiles sid rest (alErase f files)).2).1 =
              (discFiles sid rest (alErase f files)).1 from rfl]
          rw [discFiles_lookup_not_mem sid rest _ f hgr, alLookup_alErase_self]
          simp [hdel]
        · rw [discFiles_cons_keep rest hes hdel,
            discFiles_lookup_not_mem sid rest _ f hgr, alLookup_alInsert_self]
          simp [hdel]
    · have hfr : f ∈ rest := by
        rcases List.mem_cons.1 h with hh | hh
        · exact absurd hh hfg
        · exact hh
      cases hes : alLookup g files with
      | none => rw [discFiles_cons_none rest hes]; exact ih _ hndr hfr
      | some es =>
        by_cases hdel : setDel sid es = []
        · rw [discFiles_cons_del rest hes hdel]
          rw [show ((discFiles sid rest (alErase g files)).1,
              g :: (discFiles sid rest (alErase g files)).2).1 =
              (discFiles sid rest (alErase g files)).1 from rfl]
          rw [ih _ hndr hfr, alLookup_alErase_ne _ hfg]
        · rw [discFiles_cons_keep rest hes hdel, ih _ hndr hfr,
            alLookup_alInsert_ne _ _ hfg]

theorem discFiles_count_not_mem (sid : String) (cf : List String)
    (files : AListM SetS) (f : String) (h : f ∉ cf) :
    List.count f (discFiles sid cf files).2 = 0 := by
  induction cf generalizing files with
  | nil => rfl
  | cons g rest ih =>
    have hfg : f ≠ g := fun hEq => h (hEq ▸ List.mem_cons_self g rest)
    have hfr : f ∉ rest := fun hx => h (List.mem_cons_of_mem _ hx)
    cases hes : alLookup g files with
    | none => rw [discFiles_cons_none rest hes]; exact ih _ hfr
    | some es =>
      by_cases hdel : setDel sid es = []
      · rw [discFiles_cons_del rest hes hdel]
        rw [show ((discFiles sid rest (alErase g files)).1,
            g :: (discFiles sid rest (alErase g files)).2).2 =
            g :: (discFiles sid rest (alErase g files)).2 from rfl]
        rw [List.count_cons, ih _ hfr]
        simp [hfg, Ne.symm hfg]
      · rw [discFiles_cons_keep rest hes hdel]; exact ih _ hfr

theorem discFiles_count_mem (sid : String) (cf : List String)
    (files : AListM SetS) (f : String) (hnd : cf.Nodup) (h : f ∈ cf) :
    List.count f (discFiles sid cf files).2 =
      match alLookup f files with
      | none => 0
      | some es => if setDel sid es = [] then 1 else 0 := by
  induction cf generalizing files with
  | nil => cases h
  | cons g rest ih =>
    have hgr : g ∉ rest := (List.nodup_cons.1 hnd).1
    have hndr : rest.Nodup := (List.nodup_cons.1 hnd).2
    by_cases hfg : f = g
    · subst hfg
      cases hes : alLookup f files with
      | none =>
        rw [discFiles_cons_none rest hes]
        simpa using discFiles_count_not_mem sid rest files f hgr
      | some es =>
        by_cases hdel : setDel sid es = []
        · rw [discFiles_cons_del rest hes hdel]
          rw [show ((discFiles sid rest (alErase f files)).1,
              f :: (discFiles sid rest (alErase f files)).2).2 =
              f :: (discFiles sid rest (alErase f files)).2 from rfl]
          rw [List.count_cons, discFiles_count_not_mem sid rest _ f hgr]
          simp [hdel]
        · rw [discFiles_cons_keep rest hes hdel,
            discFiles_count_not_mem sid rest _ f hgr]
          simp [hdel]
    · have hfr : f ∈ rest := by
        rcases List.mem_cons.1 h with hh | hh
        · exact absurd hh hfg
        · exact hh
      cases hes : alLookup g files with
      | none => rw [discFiles_cons_none rest hes]; exact ih _ hndr hfr
      | some es =>
        by_cases hdel : setDel sid es = []
        · rw [discFiles_cons_del rest hes hdel]
          rw [show ((discFiles sid rest (alErase g files)).1,
              g :: (discFiles sid rest (alErase g files)).2).2 =
              g :: (discFiles sid rest (alErase g files)).2 from rfl]
          rw [List.count_cons, ih _ hndr hfr, alLookup_alErase_ne _ hfg]
          simp [hfg, Ne.symm hfg]
        · rw [discFiles_cons_keep rest hes hdel, ih _ hndr hfr,
            alLookup_alInsert_ne _ _ hfg]

theorem discRoom_sockets_none {sid : String} {room : RoomR}
    (h : alLookup sid room.sockets = none) : discRoom sid room = (some room, []) := by
  simp [discRoom, h]

theorem discRoom_sockets_some {sid : String} {room : RoomR} {cf : SetS}
    (h : alLookup sid room.sockets = some cf) :
    discRoom sid room =
      (if alErase sid room.sockets = [] then none
        else some ⟨(discFiles sid cf room.files).1, alErase sid room.sockets⟩,
        (discFiles sid cf room.files).2) := by
  simp [discRoom, h]

theorem disconnect_cons (r₀ : String) (room : RoomR) (rest : ServerState)
    (sid : String) :
    disconnect ((r₀, room) :: rest) sid =
      match (discRoom sid room).1 with
      | none => ((disconnect rest sid).1,
          (discRoom sid room).2.map (fun f => (r₀, f)) ++ (disconnect rest sid).2)
      | some room' => ((r₀, room') :: (disconnect rest sid).1,
          (discRoom sid room).2.map (fun f => (r₀, f)) ++ (disconnect rest sid).2) := by
  rfl

theorem disconnect_keys_sublist (st : ServerState) (sid : String) :
    List.Sublist (alKeys (disconnect st sid).1) (alKeys st) := by
  induction st with
  | nil => simp [disconnect]
  | cons p rest ih =>
    obtain ⟨r₀, room⟩ := p
    rw [disconnect_cons]
    cases hq : (discRoom sid room).1 with
    | none =>
      simp only
      exact ih.cons _
    | some room' =>
      simp only [alKeys_cons]
      exact ih.cons₂ _

theorem disconnect_emit_mem {st : ServerState} {sid a b : String}
    (h : (a, b) ∈ (disconnect st sid).2) : a ∈ alKeys st := by
  induction st with
  | nil => cases h
  | cons p rest ih =>
    obtain ⟨r₀, room⟩ := p
    rw [disconnect_cons] at h
    cases hq : (discRoom sid room).1 <;> rw [hq] at h <;>
      rcases List.mem_append.1 h with hh | hh
    · rcases List.mem_map.1 hh with ⟨g, hg, hEq⟩
      cases hEq
      simp
    · exact List.mem_cons_of_mem _ (ih hh)
    · rcases List.mem_map.1 hh with ⟨g, hg, hEq⟩
      cases hEq
      simp
    · exact List.mem_cons_of_mem _ (ih hh)

theorem count_pair_map (r f : String) (l : List String) :
    List.count (r, f) (l.map (fun g => (r, g))) = List.count f l := by
  induction l with
  | nil => rfl
  | cons g rest ih =>
    by_cases hg : g = f <;> simp [List.count_cons, ih, hg, Prod.ext_iff]

theorem count_pair_map_ne {r' r : String} (hr : r' ≠ r) (f : String)
    (l : List String) : List.count (r', f) (l.map (fun g => (r, g))) = 0 := by
  rw [List.count_eq_zero]
  simp [Prod.ext_iff, Ne.symm hr]

theorem disconnect_snd_cons (r₀ : String) (room : RoomR) (rest : ServerState)
    (sid : String) :
    (disconnect ((r₀, room) :: rest) sid).2 =
      (discRoom sid room).2.map (fun g => (r₀, g)) ++ (disconnect rest sid).2 := by
  rw [disconnect_cons]
  cases (discRoom sid room).1 <;> rfl

theorem disconnect_lookup_ne (rest : ServerState) (sid r₀ : String) (room : RoomR)
    (r : String) (hr : r ≠ r₀) :
    alLookup r (disconnect ((r₀, room) :: rest) sid).1 =
      alLookup r (disconnect rest sid).1 := by
  rw [disconnect_cons]
  cases hq : (discRoom sid room).1 with
  | none => rfl
  | some room' => simp [alLookup, Ne.symm hr]

theorem disconnect_lookup_head (rest : ServerState) (sid r₀ : String) (room : RoomR)
    (hnd : r₀ ∉ alKeys rest) :
    alLookup r₀ (disconnect ((r₀, room) :: rest) sid).1 = (discRoom sid room).1 := by
  rw [disconnect_cons]
  cases hq : (discRoom sid room).1 with
  | none =>
    have hkeys : r₀ ∉ alKeys (disconnect rest sid).1 :=
      fun hm => hnd ((disconnect_keys_sublist rest sid).subset hm)
    simpa using alLookup_eq_none_iff.2 hkeys
  | some room' => simp [alLookup]

/-- Per-step final-save characterization for `disconnect`: for each pair
`(r, f)`, one `save-final` is emitted exactly when that file's editor set
transitions from nonempty to empty. -/
theorem disc_char (st : ServerState) (sid r f : String) (hwf : WF st) :
    List.count (r, f) (disconnect st sid).2 =
      if editors st r f ≠ [] ∧ editors (disconnect st sid).1 r f = []
      then 1 else 0 := by
  induction st with
  | nil =>
    rw [if_neg]
    · rfl
    · rintro ⟨h1, _⟩
      exact h1 rfl
  | cons p rest ih =>
    obtain ⟨r₀, room⟩ := p
    have hwfr : WF rest := hwf.tail
    have hnd0 := hwf.roomsNodup
    rw [alKeys_cons, List.nodup_cons] at hnd0
    by_cases hr : r = r₀
    · subst hr
      have hhead : alLookup r ((r, room) :: rest) = some room := by simp [alLookup]
      have hbefore : editors ((r, room) :: rest) r f =
          (alLookup f room.files).getD [] := by
        simp [editors, alLookup]
      have hrest0 : List.count (r, f) (disconnect rest sid).2 = 0 := by
        rw [List.count_eq_zero]
        intro hmem
        exact hnd0.1 (disconnect_emit_mem hmem)
      cases hsock : alLookup sid room.sockets with
      | none =>
        have hq := discRoom_sockets_none hsock
        have hemit : (disconnect ((r, room) :: rest) sid).2 =
            (disconnect rest sid).2 := by
          rw [disconnect_snd_cons, hq]
          simp
        have hafter : editors (disconnect ((r, room) :: rest) sid).1 r f =
            editors ((r, room) :: rest) r f := by
          unfold editors
          rw [disconnect_lookup_head rest sid r room hnd0.1, hq, hhead]
        rw [hemit, hrest0, if_neg]
        rintro ⟨h1, h2⟩
        rw [hafter] at h2
        exact h1 h2
      | some cf =>
        have hq := discRoom_sockets_some hsock
        have hq1 : (discRoom sid room).1 =
            if alErase sid room.sockets = [] then none
            else some ⟨(discFiles sid cf room.files).1, alErase sid room.sockets⟩ := by
          rw [hq]
        have hq2 : (discRoom sid room).2 = (discFiles sid cf room.files).2 := by
          rw [hq]
        have hcfnd : cf.Nodup := (hwf.rooms r room hhead).cfNodup sid cf hsock
        have hcnt : List.count (r, f) (disconnect ((r, room) :: rest) sid).2 =
            List.count f (discFiles sid cf room.files).2 := by
          rw [disconnect_snd_cons, List.count_append, hrest0, hq2,
            count_pair_map, Nat.add_zero]
        by_cases hfin : f ∈ cf
        · cases hes : alLookup f room.files with
          | none =>
            have hzero : List.count f (discFiles sid cf room.files).2 = 0 := by
              rw [discFiles_count_mem sid cf room.files f hcfnd hfin, hes]
            rw [hcnt, hzero, if_neg]
            rintro ⟨h1, _⟩
            rw [hbefore, hes] at h1
            exact h1 rfl
          | some es =>
            by_cases hdel : setDel sid es = []
            · have hone : List.count f (discFiles sid cf room.files).2 = 1 := by
                rw [discFiles_count_mem sid cf room.files f hcfnd hfin, hes]
                simp [hdel]
              have hafter : editors (disconnect ((r, room) :: rest) sid).1 r f = [] := by
                unfold editors
                rw [disconnect_lookup_head rest sid r room hnd0.1, hq1]
                by_cases hempty : alErase sid room.sockets = []
                · rw [if_pos hempty]
                · rw [if_neg hempty]
                  simp only
                  rw [discFiles_lookup_mem sid cf room.files f hcfnd hfin, hes]
                  simp [hdel]
              rw [hcnt, hone, if_pos]
              constructor
              · rw [hbefore, hes]
                simpa using (hwf.rooms r room hhead).editorsNE f es hes
              · exact hafter
            · have hzero : List.count f (discFiles sid cf room.files).2 = 0 := by
                rw [discFiles_count_mem sid cf room.files f hcfnd hfin, hes]
                simp [hdel]
              obtain ⟨s, hs⟩ := List.exists_mem_of_ne_nil _ hdel
              have hs' := mem_setDel.1 hs
              obtain ⟨cfl, hcl, hfcl⟩ :=
                (hwf.rooms r room hhead).consistent f es s hes hs'.1
              have hempty : alErase sid room.sockets ≠ [] :=
                alErase_ne_nil_of_lookup hcl hs'.2
              have hafter : editors (disconnect ((r, room) :: rest) sid).1 r f =
                  setDel sid es := by
                unfold editors
                rw [disconnect_lookup_head rest sid r room hnd0.1, hq1,
                  if_neg hempty]
                simp only
                rw [discFiles_lookup_mem sid cf room.files f hcfnd hfin, hes]
                simp [hdel]
              rw [hcnt, hzero, if_neg]
              rintro ⟨_, h2⟩
              rw [hafter] at h2
              exact hdel h2
        · have hzero : List.count f (discFiles sid cf room.files).2 = 0 :=
            discFiles_count_not_mem sid cf room.files f hfin
          by_cases hempty : alErase sid room.sockets = []
          · have hbnil : editors ((r, room) :: rest) r f = [] := by
              rw [hbefore]
              cases hes : alLookup f room.files with
              | none => rfl
              | some es =>
                exfalso
                have hne : es ≠ [] := (hwf.rooms r room hhead).editorsNE f es hes
                obtain ⟨s, hs⟩ := List.exists_mem_of_ne_nil _ hne
                obtain ⟨cfl, hcl, hfcl⟩ :=
                  (hwf.rooms r room hhead).consistent f es s hes hs
                by_cases hssid : s = sid
                · subst hssid
                  rw [hcl] at hsock
                  cases hsock
                  exact hfin hfcl
                · exact alErase_ne_nil_of_lookup hcl hssid hempty
            rw [hcnt, hzero, if_neg]
            rintro ⟨h1, _⟩
            exact h1 hbnil
          · have hafter : editors (disconnect ((r, room) :: rest) sid).1 r f =
                editors ((r, room) :: rest) r f := by
              unfold editors
              rw [disconnect_lookup_head rest sid r room hnd0.1, hq1,
                if_neg hempty]
              simp only
              rw [discFiles_lookup_not_mem sid cf room.files f hfin, hhead]
            rw [hcnt, hzero, if_neg]
            rintro ⟨h1, h2⟩
            rw [hafter] at h2
            exact h1 h2
    · have hbe : editors ((r₀, room) :: rest) r f = editors rest r f := by
        simp [editors, alLookup, Ne.symm hr]
      have haf : editors (disconnect ((r₀, room) :: rest) sid).1 r f =
          editors (disconnect rest sid).1 r f := by
        unfold editors
        rw [disconnect_lookup_ne rest sid r₀ room r hr]
      have hmap0 : List.count (r, f)
          ((discRoom sid room).2.map (fun g => (r₀, g))) = 0 :=
        count_pair_map_ne hr f _
      rw [disconnect_snd_cons, List.count_append, hmap0, hbe, haf]
      simpa using ih hwfr

/-! ## Preservation of well-formedness by the three handlers. -/

theorem wf_alInsert_room (st : ServerState) (r₀ : String) (room' : RoomR)
    (hwf : WF st) (hroom' : RoomWF room') : WF (alInsert r₀ room' st) := by
  constructor
  · exact alKeys_alInsert_nodup hwf.roomsNodup
  · intro r rm hl
    by_cases hr : r = r₀
    · subst hr
      rw [alLookup_alInsert_self] at hl
      cases hl
      exact hroom'
    · rw [alLookup_alInsert_ne _ _ hr] at hl
      exact hwf.rooms r rm hl

theorem RoomWF.join (sid f₀ : String) (room : RoomR) (h : RoomWF room) :
    RoomWF
      ⟨alInsert f₀ (setAdd sid ((alLookup f₀ room.files).getD [])) room.files,
        alInsert sid (setAdd f₀ ((alLookup sid room.sockets).getD []))
          room.sockets⟩ := by
  refine ⟨?_, ?_, ?_⟩ <;> dsimp only
  · intro s cfl hl
    by_cases hs : s = sid
    · subst hs
      rw [alLookup_alInsert_self] at hl
      cases hl
      apply setAdd_nodup
      cases hcf : alLookup s room.sockets with
      | none => simp
      | some cf0 => simpa using h.cfNodup s cf0 hcf
    · rw [alLookup_alInsert_ne _ _ hs] at hl
      exact h.cfNodup s cfl hl
  · intro f es hl
    by_cases hf : f = f₀
    · subst hf
      rw [alLookup_alInsert_self] at hl
      cases hl
      exact setAdd_ne_nil _ _
    · rw [alLookup_alInsert_ne _ _ hf] at hl
      exact h.editorsNE f es hl
  · intro f es s hl hs
    by_cases hf : f = f₀
    · subst hf
      rw [alLookup_alInsert_self] at hl
      cases hl
      by_cases hssid : s = sid
      · subst hssid
        exact ⟨_, alLookup_alInsert_self _ _ _, mem_setAdd.2 (Or.inr rfl)⟩
      · rcases mem_setAdd.1 hs with hmem | hEq
        · obtain ⟨es0, hes0, hmem0⟩ := mem_getD_nil hmem
          obtain ⟨cfl, hcl, hfcl⟩ := h.consistent f es0 s hes0 hmem0
          exact ⟨cfl, by rw [alLookup_alInsert_ne _ _ hssid]; exact hcl, hfcl⟩
        · exact absurd hEq hssid
    · rw [alLookup_alInsert_ne _ _ hf] at hl
      obtain ⟨cfl, hcl, hfcl⟩ := h.consistent f es s hl hs
      by_cases hssid : s = sid
      · subst hssid
        refine ⟨_, alLookup_alInsert_self _ _ _, ?_⟩
        rw [hcl]
        exact mem_setAdd.2 (Or.inl (by simpa using hfcl))
      · exact ⟨cfl, by rw [alLookup_alInsert_ne _ _ hssid]; exact hcl, hfcl⟩

theorem wf_join (st : ServerState) (sid r₀ f₀ : String) (hwf : WF st) :
    WF (joinFile st sid r₀ f₀) := by
  have hform : joinFile st sid r₀ f₀ =
      alInsert r₀
        ⟨alInsert f₀
            (setAdd sid ((alLookup f₀ ((alLookup r₀ st).getD ⟨[], []⟩).files).getD []))
            ((alLookup r₀ st).getD ⟨[], []⟩).files,
          alInsert sid
            (setAdd f₀ ((alLookup sid ((alLookup r₀ st).getD ⟨[], []⟩).sockets).getD []))
            ((alLookup r₀ st).getD ⟨[], []⟩).sockets⟩ st := rfl
  rw [hform]
  apply wf_alInsert_room st r₀ _ hwf
  apply RoomWF.join
  cases hst : alLookup r₀ st with
  | none => exact RoomWF.empty
  | some room0 => exact hwf.rooms r₀ room0 hst

/-- Generic room-level preservation lemma for `leave-file`: the new files map
only shrinks editor sets (removing `sid` from `f₀`), and socket `currentFiles`
membership survives except for `(sid, f₀)` itself. -/
theorem roomwf_leave (sid f₀ : String) (room : RoomR) (h : RoomWF room)
    (files' sockets' : AListM SetS)
    (hfiles : ∀ f es'', alLookup f files' = some es'' →
      es'' ≠ [] ∧ ∃ es0, alLookup f room.files = some es0 ∧
        (∀ x ∈ es'', x ∈ es0) ∧ (f = f₀ → sid ∉ es''))
    (hsnodup : ∀ s cfl, alLookup s sockets' = some cfl → cfl.Nodup)
    (hsurv : ∀ s cfl0, alLookup s room.sockets = some cfl0 → ∀ g ∈ cfl0,
      (s = sid → g ≠ f₀) → ∃ cfl, alLookup s sockets' = some cfl ∧ g ∈ cfl) :
    RoomWF ⟨files', sockets'⟩ := by
  refine ⟨?_, ?_, ?_⟩ <;> dsimp only
  · exact hsnodup
  · intro f es hl
    exact (hfiles f es hl).1
  · intro f es s hl hs
    obtain ⟨hne, es0, hes0, hsub, hf₀⟩ := hfiles f es hl
    obtain ⟨cfl0, hcl0, hfcl0⟩ := h.consistent f es0 s hes0 (hsub s hs)
    exact hsurv s cfl0 hcl0 f hfcl0 (fun hssid hff₀ => (hf₀ hff₀) (hssid ▸ hs))

theorem wf_leave (st : ServerState) (sid r₀ f₀ : String) (hwf : WF st) :
    WF (leaveFile st sid r₀ f₀).1 := by
  cases hst : alLookup r₀ st with
  | none => simpa [leaveFile, hst] using hwf
  | some room =>
    have hroomwf := hwf.rooms r₀ room hst
    -- socket-side obligations, shared by all file-side branches
    have hsock : ∀ sockets',
        (match alLookup sid room.sockets with
          | none => room.sockets
          | some cf => alInsert sid (setDel f₀ cf) room.sockets) = sockets' →
        (∀ s cfl, alLookup s sockets' = some cfl → cfl.Nodup) ∧
        (∀ s cfl0, alLookup s room.sockets = some cfl0 → ∀ g ∈ cfl0,
          (s = sid → g ≠ f₀) → ∃ cfl, alLookup s sockets' = some cfl ∧ g ∈ cfl) := by
      intro sockets' hform
      cases hsk : alLookup sid room.sockets with
      | none =>
        rw [hsk] at hform
        subst hform
        refine ⟨?_, ?_⟩
        · exact hroomwf.cfNodup
        · intro s cfl0 hcl0 g hg _
          exact ⟨cfl0, hcl0, hg⟩
      | some cfS =>
        rw [hsk] at hform
        subst hform
        constructor
        · intro s cfl hl
          by_cases hssid : s = sid
          · subst hssid
            rw [alLookup_alInsert_self] at hl
            cases hl
            exact setDel_nodup (hroomwf.cfNodup s cfS hsk)
          · rw [alLookup_alInsert_ne _ _ hssid] at hl
            exact hroomwf.cfNodup s cfl hl
        · intro s cfl0 hcl0 g hg hgf
          by_cases hssid : s = sid
          · subst hssid
            rw [hsk] at hcl0
            cases hcl0
            refine ⟨_, alLookup_alInsert_self _ _ _, ?_⟩
            exact mem_setDel.2 ⟨hg, hgf rfl⟩
          · rw [← alLookup_alInsert_ne (k := s) (setDel f₀ cfS) room.sockets hssid] at hcl0
            exact ⟨cfl0, hcl0, hg⟩
    cases hes : alLookup f₀ room.files with
    | none =>
      have hstate : (leaveFile st sid r₀ f₀).1 =
          alInsert r₀
            ⟨room.files,
              match alLookup sid room.sockets with
              | none => room.sockets
              | some cf => alInsert sid (setDel f₀ cf) room.sockets⟩ st := by
        simp [leaveFile, hst, hes]
      rw [hstate]
      obtain ⟨h1, h2⟩ := hsock _ rfl
      apply wf_alInsert_room st r₀ _ hwf
      apply roomwf_leave sid f₀ room hroomwf _ _ _ h1 h2
      intro f es'' hl
      refine ⟨hroomwf.editorsNE f es'' hl, es'', hl, fun x hx => hx, ?_⟩
      intro hf
      subst hf
      rw [hes] at hl
      cases hl
    | some es =>
      by_cases hdel : setDel sid es = []
      · have hstate : (leaveFile st sid r₀ f₀).1 =
            alInsert r₀
              ⟨alErase f₀ room.files,
                match alLookup sid room.sockets with
                | none => room.sockets
                | some cf => alInsert sid (setDel f₀ cf) room.sockets⟩ st := by
          simp [leaveFile, hst, hes, hdel]
        rw [hstate]
        obtain ⟨h1, h2⟩ := hsock _ rfl
        apply wf_alInsert_room st r₀ _ hwf
        apply roomwf_leave sid f₀ room hroomwf _ _ _ h1 h2
        intro f es'' hl
        by_cases hf : f = f₀
        · subst hf
          rw [alLookup_alErase_self] at hl
          cases hl
        · rw [alLookup_alErase_ne _ hf] at hl
          exact ⟨hroomwf.editorsNE f es'' hl, es'', hl, fun x hx => hx,
            fun hEq => absurd hEq hf⟩
      · have hstate : (leaveFile st sid r₀ f₀).1 =
            alInsert r₀
              ⟨alInsert f₀ (setDel sid es) room.files,
                match alLookup sid room.sockets with
                | none => room.sockets
                | some cf => alInsert sid (setDel f₀ cf) room.sockets⟩ st := by
          simp [leaveFile, hst, hes, hdel]
        rw [hstate]
        obtain ⟨h1, h2⟩ := hsock _ rfl
        apply wf_alInsert_room st r₀ _ hwf
        apply roomwf_leave sid f₀ room hroomwf _ _ _ h1 h2
        intro f es'' hl
        by_cases hf : f = f₀
        · subst hf
          rw [alLookup_alInsert_self] at hl
          cases hl
          refine ⟨hdel, es, hes, fun x hx => (mem_setDel.1 hx).1, ?_⟩
          intro _ hmem
          exact (mem_setDel.1 hmem).2 rfl
        · rw [alLookup_alInsert_ne _ _ hf] at hl
          exact ⟨hroomwf.editorsNE f es'' hl, es'', hl, fun x hx => hx,
            fun hEq => absurd hEq hf⟩

theorem wf_disc (st : ServerState) (sid : String) (hwf : WF st) :
    WF (disconnect st sid).1 := by
  induction st with
  | nil => exact WF.nil
  | cons p rest ih =>
    obtain ⟨r₀, room⟩ := p
    have hwfr : WF rest := hwf.tail
    have hih : WF (disconnect rest sid).1 := ih hwfr
    have hnd0 := hwf.roomsNodup
    rw [alKeys_cons, List.nodup_cons] at hnd0
    have hhead : alLookup r₀ ((r₀, room) :: rest) = some room := by simp [alLookup]
    have hroomwf := hwf.rooms r₀ room hhead
    constructor
    · exact (disconnect_keys_sublist ((r₀, room) :: rest) sid).nodup hwf.roomsNodup
    · intro r room' hl
      by_cases hr : r = r₀
      · subst hr
        rw [disconnect_lookup_head rest sid r room hnd0.1] at hl
        cases hsk : alLookup sid room.sockets with
        | none =>
          rw [discRoom_sockets_none hsk] at hl
          cases hl
          exact hroomwf
        | some cf =>
          rw [discRoom_sockets_some hsk] at hl
          by_cases hempty : alErase sid room.sockets = []
          · rw [if_pos hempty] at hl
            cases hl
          · rw [if_neg hempty] at hl
            cases hl
            have hcfnd : cf.Nodup := hroomwf.cfNodup sid cf hsk
            refine ⟨?_, ?_, ?_⟩ <;> dsimp only
            · intro s cfl hcl
              by_cases hssid : s = sid
              · subst hssid
                rw [alLookup_alErase_self] at hcl
                cases hcl
              · rw [alLookup_alErase_ne _ hssid] at hcl
                exact hroomwf.cfNodup s cfl hcl
            · intro f es hl'
              by_cases hfin : f ∈ cf
              · rw [discFiles_lookup_mem sid cf room.files f hcfnd hfin] at hl'
                cases hes : alLookup f room.files with
                | none => simp [hes] at hl'
                | some es0 =>
                  by_cases hdel : setDel sid es0 = []
                  · simp [hes, hdel] at hl'
                  · simp [hes, hdel] at hl'
                    exact hl' ▸ hdel
              · rw [discFiles_lookup_not_mem sid cf room.files f hfin] at hl'
                exact hroomwf.editorsNE f es hl'
            · intro f es s hl' hs
              by_cases hfin : f ∈ cf
              · rw [discFiles_lookup_mem sid cf room.files f hcfnd hfin] at hl'
                cases hes : alLookup f room.files with
                | none => simp [hes] at hl'
                | some es0 =>
                  by_cases hdel : setDel sid es0 = []
                  · simp [hes, hdel] at hl'
                  · simp [hes, hdel] at hl'
                    subst hl'
                    have hmem := mem_setDel.1 hs
                    obtain ⟨cfl, hcl, hfcl⟩ :=
                      hroomwf.consistent f es0 s hes hmem.1
                    refine ⟨cfl, ?_, hfcl⟩
                    rw [alLookup_alErase_ne _ hmem.2]
                    exact hcl
              · rw [discFiles_lookup_not_mem sid cf room.files f hfin] at hl'
                obtain ⟨cfl, hcl, hfcl⟩ := hroomwf.consistent f es s hl' hs
                have hssid : s ≠ sid := by
                  intro hEq
                  subst hEq
                  rw [hsk] at hcl
                  cases hcl
                  exact hfin hfcl
                refine ⟨cfl, ?_, hfcl⟩
                rw [alLookup_alErase_ne _ hssid]
                exact hcl
      · rw [disconnect_lookup_ne rest sid r₀ room r hr] at hl
        exact hih.rooms r room' hl

theorem wf_step (st : ServerState) (e : Event) (hwf : WF st) : WF (step st e).1 := by
  cases e with
  | join sid r f => exact wf_join st sid r f hwf
  | leave sid r f => exact wf_leave st sid r f hwf
  | disc sid => exact wf_disc st sid hwf

theorem wf_run (tr : List Event) : WF (run tr) := by
  suffices h : ∀ st, WF st → WF (tr.foldl (fun st e => (step st e).1) st) from
    h [] WF.nil
  induction tr with
  | nil => intro st h; exact h
  | cons e rest ih => intro st h; exact ih _ (wf_step st e h)

theorem step_char (st : ServerState) (e : Event) (r f : String) (hwf : WF st) :
    List.count (r, f) (step st e).2 =
      if editors st r f ≠ [] ∧ editors (step st e).1 r f = [] then 1 else 0 := by
  cases e with
  | join sid r₀ f₀ => exact join_char st sid r₀ f₀ r f
  | leave sid r₀ f₀ => exact leave_char st sid r₀ f₀ r f hwf
  | disc sid => exact disc_char st sid r f hwf

/-- C1: Final-save is emitted exactly once per empty transition.  For every
sequence of join-file, leave-file and disconnect events applied to the
relay's initially empty registry, and every next event, the number of
`save-final` signals emitted for `(r, f)` by that event is one exactly when
the `(r, f)` editor set transitions from nonempty (one editor, since a single
event removes at most the one leaving socket) to empty, and zero otherwise —
in particular zero whenever at least one editor remains registered. -/
theorem c1_final_save_exactly_once (tr : List Event) (e : Event) (r f : String) :
    List.count (r, f) (step (run tr) e).2 =
      if editors (run tr) r f ≠ [] ∧ editors (step (run tr) e).1 r f = []
      then 1 else 0 :=
  step_char (run tr) e r f (wf_run tr)

/-- C3: Update routing is scoped to the file's editor set: a `yjs-update`
received from `sid` for `(r, f)` is forwarded, with the same file name and
operation payload, to exactly the current editors of that `(r, f)` pair other
than the sender — so never to a connection registered only under other files
of the room (any recipient is a member of this file's editor set). -/
theorem c3_update_routing_scoped (st : ServerState) (sid r f : String)
    (upd : List Nat) (t f' : String) (u' : List Nat) :
    (t, f', u') ∈ yjsUpdateEmits st sid r f upd ↔
      t ∈ editors st r f ∧ t ≠ sid ∧ f' = f ∧ u' = upd := by
  unfold yjsUpdateEmits editors
  cases hst : alLookup r st with
  | none => simp
  | some room =>
    cases hes : alLookup f room.files with
    | none => simp [hes]
    | some es =>
      simp only [hes, Option.getD_some, List.mem_map, List.mem_filter]
      constructor
      · rintro ⟨a, ⟨ha, hane⟩, hEq⟩
        cases hEq
        exact ⟨ha, by simpa using hane, rfl, rfl⟩
      · rintro ⟨ht, hne, rfl, rfl⟩
        exact ⟨t, ⟨ht, by simpa using hne⟩, rfl⟩

/-- C4: Sync requests and replies are targeted, never room-wide: a
`request-file-sync` prompts exactly the other current editors of that file
(each prompt carrying the requester's id), and a `reply-sync` answer is
delivered only to the single connection named in its `to` field — at most one
recipient, never the file's whole editor set. -/
theorem c4_sync_requests_and_replies_targeted (st : ServerState)
    (sid r f toSid fileName : String) (upd : List Nat) :
    (∀ t req f', (t, req, f') ∈ requestFileSyncEmits st sid r f ↔
      t ∈ editors st r f ∧ t ≠ sid ∧ req = sid ∧ f' = f) ∧
    (∀ m ∈ replySyncEmits toSid fileName upd, m.1 = toSid) ∧
    (replySyncEmits toSid fileName upd).length ≤ 1 := by
  refine ⟨?_, ?_, ?_⟩
  · intro t req f'
    unfold requestFileSyncEmits editors
    cases hst : alLookup r st with
    | none => simp
    | some room =>
      cases hes : alLookup f room.files with
      | none => simp [hes]
      | some es =>
        simp only [hes, Option.getD_some, List.mem_map, List.mem_filter]
        constructor
        · rintro ⟨a, ⟨ha, hane⟩, hEq⟩
          cases hEq
          exact ⟨ha, by simpa using hane, rfl, rfl⟩
        · rintro ⟨ht, hne, rfl, rfl⟩
          exact ⟨t, ⟨ht, by simpa using hne⟩, rfl⟩
  · intro m hm
    unfold replySyncEmits at hm
    split at hm
    · simp at hm
      rw [hm]
    · simp at hm
  · unfold replySyncEmits
    split <;> simp

/-- C9: join-file is idempotent on the relay registry: when the connection is
already registered as an editor of `(r, f)` — it is in the file's editor set,
it is a key of the room's sockets map, and `f` is in its `currentFiles` —
processing a second `join-file` leaves the registry exactly unchanged. -/
theorem c9_join_idempotent (st : ServerState) (sid r f : String) (room : RoomR)
    (es cfl : SetS) (hst : alLookup r st = some room)
    (hes : alLookup f room.files = some es) (hsid : sid ∈ es)
    (hcf : alLookup sid room.sockets = some cfl) (hf : f ∈ cfl) :
    joinFile st sid r f = st := by
  unfold joinFile
  simp only [hst, Option.getD_some, hes, hcf]
  rw [setAdd_eq_of_mem hsid, setAdd_eq_of_mem hf,
    alInsert_lookup_eq hes, alInsert_lookup_eq hcf]
  exact alInsert_lookup_eq hst

/-- Witness for C9 at a concrete registry reached by one join. -/
theorem c9_join_idempotent_witness :
    joinFile (run [Event.join "A" "r" "x"]) "A" "r" "x" =
      run [Event.join "A" "r" "x"] :=
  c9_join_idempotent (run [Event.join "A" "r" "x"]) "A" "r" "x"
    ⟨[("x", ["A"])], [("A", ["x"])]⟩ ["A"] ["x"]
    (by decide) (by decide) (by decide) (by decide) (by decide)

/-! ## Sync client (`src/components/CollabEditor.tsx`)

The collaborative editor keeps `lastSavedContentRef`, a note-id cache
`noteIdCacheRef : Map "roomId:fileName" → id`, and a Yjs document.
`saveDoc(fileName?, forceImmediate)` persists the current content through
Supabase; `updateHandler` broadcasts local document updates; the `useEffect`
teardown closure performs the cleanup save. -/

/-- A Yjs document-update notification: the encoded update and the
transaction origin (third argument of `Y.applyUpdate`; when the call passes
only two arguments there is no origin, modelled as `none`). -/
structure UpdateEvent where
  update : List Nat
  origin : Option String
deriving DecidableEq, Repr

/-- `handleYjsUpdate` (CollabEditor.tsx:335-346): a remote operation received
from the relay is applied with `Y.applyUpdate(ydoc, u)` — two arguments, no
origin — so the resulting document-update notification carries no origin.
(`isUpdatingFromRemoteRef` is set around the call, but only the text observer
consults that flag; the broadcast path below does not.) -/
def handleYjsUpdate (u : List Nat) : UpdateEvent := { update := u, origin := none }

/-- `updateHandler` (CollabEditor.tsx:430-438) with `debouncedEmitUpdate`
(421-428): return early only when the transaction origin is the string
`'remote'`; otherwise hand the update to the debounced emitter, which sends
it to the relay whenever the socket is connected.  Result: the updates
emitted back to the relay for this notification. -/
def updateHandler (connected : Bool) (e : UpdateEvent) : List (List Nat) :=
  if e.origin = some "remote" then []
  else if connected then [e.update] else []

/-- C2 (failing-input evaluation): merging a document-changing remote
operation fires the update notification with no origin, which the broadcast
guard (`origin === 'remote'`) does not stop, so the client re-emits the
received operation to the relay — the echo the claim rules out. -/
theorem c2_remote_update_is_rebroadcast :
    updateHandler true (handleYjsUpdate [1, 2, 3]) = [[1, 2, 3]] := rfl

/-- Outcome of the Supabase insert inside `saveDoc`: success with the new row
id, a uniqueness violation (`code 23505` / `duplicate`), or another error. -/
inductive InsertRes where
  | ok (id : String)
  | dup
  | fail (msg : String)
deriving DecidableEq, Repr

/-- Responses the persistence gateway gives during one `saveDoc` call:
`find1` for the first `findNoteId` query (`none` covers both "no row" and a
query error, which `findNoteId` catches and turns into `null`), `insertRes`
for the insert, `find2` for the recovery re-fetch after a duplicate, and
`updateOk` for the recovery update.  The upsert branch discards its error, so
no field is needed for it. -/
structure DBOracle where
  find1 : Option String
  insertRes : InsertRes
  find2 : Option String
  updateOk : Bool
deriving DecidableEq, Repr

/-- A write request issued to the persistence gateway. -/
inductive WriteOp where
  | upsertW (room title content : String)
  | insertW (room title content : String)
  | updateW (id content : String)
deriving DecidableEq, Repr

/-- Result of one `saveDoc` call: the write requests it issued, the error it
surfaced via `setError`, and whether the save promise rejected. -/
structure SaveResult where
  writes : List WriteOp
  surfaced : Option String
  threw : Bool
deriving DecidableEq, Repr

/-- The refs of the editor relevant to persistence: the current document
content (`ytext.toString()`), `lastSavedContentRef`, `noteIdCacheRef`, and
`isMountedRef`. -/
structure ClientState where
  content : String
  lastSaved : String
  cache : AListM String
  mounted : Bool
deriving DecidableEq, Repr

/-- The emptiness test `!currentContent.trim()` of `saveDoc`: the content is
blank when every character is whitespace.  (Defined over the character list
by structural recursion, which is what `String.trim` computes with.) -/
def isBlank (s : String) : Bool := s.data.all (fun c => c.isWhitespace)

/-- `saveDoc` (CollabEditor.tsx:107-198).  Guards: missing doc/unmounted/no
file name; then, unless forced, empty-after-trim content and
content-unchanged-since-last-attempt both return with no write.  Past the
guards, `lastSavedContentRef` is set to the attempted content BEFORE any
write.  (The wait on `savePromiseRef` only sequences asynchronous calls and
affects no outcome modelled here.)  Then: a cached or freshly found note id
leads to an upsert whose error is discarded; otherwise an insert — on
success the id is cached; on a uniqueness conflict the id is re-fetched,
cached, and the row updated (throwing if that update fails or the re-fetch
finds nothing); on any other error the save throws.  A throw sets the
user-visible error via `setError`. -/
def saveDoc (st : ClientState) (roomId fileToSave : String)
    (forceImmediate : Bool) (db : DBOracle) : SaveResult × ClientState :=
  if st.mounted = false ∨ fileToSave = "" then (⟨[], none, false⟩, st)
  else if forceImmediate = false ∧ isBlank st.content = true then (⟨[], none, false⟩, st)
  else if forceImmediate = false ∧ st.content = st.lastSaved then (⟨[], none, false⟩, st)
  else
    let c := st.content
    let st1 : ClientState := { st with lastSaved := c }
    let cacheKey := roomId ++ ":" ++ fileToSave
    match alLookup cacheKey st1.cache with
    | some _ => (⟨[.upsertW roomId fileToSave c], none, false⟩, st1)
    | none =>
      match db.find1 with
      | some id0 =>
        (⟨[.upsertW roomId fileToSave c], none, false⟩,
          { st1 with cache := alInsert cacheKey id0 st1.cache })
      | none =>
        match db.insertRes with
        | .ok newId =>
          (⟨[.insertW roomId fileToSave c], none, false⟩,
            { st1 with cache := alInsert cacheKey newId st1.cache })
        | .dup =>
          match db.find2 with
          | some rid =>
            if db.updateOk then
              (⟨[.insertW roomId fileToSave c, .updateW rid c], none, false⟩,
                { st1 with cache := alInsert cacheKey rid st1.cache })
            else
              (⟨[.insertW roomId fileToSave c, .updateW rid c],
                some ("Failed to save " ++ fileToSave), true⟩,
                { st1 with cache := alInsert cacheKey rid st1.cache })
          | none =>
            (⟨[.insertW roomId fileToSave c],
              some ("Failed to save " ++ fileToSave), true⟩, st1)
        | .fail _ =>
          (⟨[.insertW roomId fileToSave c],
            some ("Failed to save " ++ fileToSave), true⟩, st1)

/-- Result of running the teardown closure. -/
structure CleanupResult where
  save : Option (SaveResult × ClientState)
  leaveEmitted : Bool
deriving DecidableEq, Repr

/-- The cleanup closure of the collaboration `useEffect` teardown
(CollabEditor.tsx:476-500): run a forced save only when the content is truthy
(non-empty) AND differs from `lastSavedContentRef`; then emit `leave-file`
when the socket is connected. -/
def cleanup (st : ClientState) (roomId currentFile : String) (db : DBOracle)
    (connected : Bool) : CleanupResult :=
  if st.content ≠ "" ∧ st.content ≠ st.lastSaved then
    ⟨some (saveDoc st roomId currentFile true db), connected⟩
  else ⟨none, connected⟩

theorem saveDoc_content_unchanged (st : ClientState) (rm file : String)
    (force : Bool) (db : DBOracle) :
    (saveDoc st rm file force db).2.content = st.content := by
  unfold saveDoc
  dsimp only
  repeat' split
  all_goals rfl

theorem saveDoc_skip_eq (st : ClientState) (rm file : String) (db : DBOracle)
    (h : st.content = st.lastSaved) :
    (saveDoc st rm file false db).1.writes = [] ∧
      (saveDoc st rm file false db).2 = st := by
  unfold saveDoc
  by_cases h1 : st.mounted = false ∨ file = ""
  · rw [if_pos h1]
    exact ⟨rfl, rfl⟩
  · rw [if_neg h1]
    by_cases h2 : isBlank st.content = true
    · rw [if_pos ⟨rfl, h2⟩]
      exact ⟨rfl, rfl⟩
    · rw [if_neg (fun hc => h2 hc.2), if_pos ⟨rfl, h⟩]
      exact ⟨rfl, rfl⟩

theorem saveDoc_threw_lastSaved (st : ClientState) (rm file : String)
    (force : Bool) (db : DBOracle)
    (hthrew : (saveDoc st rm file force db).1.threw = true) :
    (saveDoc st rm file force db).2.lastSaved = st.content := by
  unfold saveDoc at hthrew ⊢
  by_cases h1 : st.mounted = false ∨ file = ""
  · rw [if_pos h1] at hthrew
    simp at hthrew
  · rw [if_neg h1] at hthrew ⊢
    by_cases h2 : force = false ∧ isBlank st.content = true
    · rw [if_pos h2] at hthrew
      simp at hthrew
    · rw [if_neg h2] at hthrew ⊢
      by_cases h3 : force = false ∧ st.content = st.lastSaved
      · rw [if_pos h3] at hthrew
        simp at hthrew
      · rw [if_neg h3]
        dsimp only
        repeat' split
        all_goals rfl

/-- C5 (amended): save skipping is relative to the last save ATTEMPT, not the
last successful save: `saveDoc` records the attempted content in
`lastSavedContentRef` before writing, whether or not the write succeeds, so
(i) a save never modifies the in-memory content; (ii) a save that throws
still records the attempted content as last-saved; (iii) hence the next
debounced (non-forced) save with that same still-unsaved content performs no
write — it is skipped, not retried; and (iv) generally a non-forced save
whose content equals the recorded last-saved content performs no write. -/
theorem c5_skip_relative_to_attempt (st : ClientState) (rm file : String)
    (force : Bool) (db db' : DBOracle)
    (hthrew : (saveDoc st rm file force db).1.threw = true) :
    (saveDoc st rm file force db).2.content = st.content ∧
    (saveDoc st rm file force db).2.lastSaved = st.content ∧
    (saveDoc (saveDoc st rm file force db).2 rm file false db').1.writes = [] ∧
    (∀ st2 : ClientState, st2.content = st2.lastSaved →
      (saveDoc st2 rm file false db').1.writes = []) := by
  have hc := saveDoc_content_unchanged st rm file force db
  have hl := saveDoc_threw_lastSaved st rm file force db hthrew
  refine ⟨hc, hl, ?_, ?_⟩
  · exact (saveDoc_skip_eq _ rm file db' (by rw [hc, hl])).1
  · intro st2 h2
    exact (saveDoc_skip_eq st2 rm file db' h2).1

/-- Witness for C5 (amended) at a concrete failing save. -/
theorem c5_skip_relative_to_attempt_witness :
    (saveDoc ⟨"x", "", [], true⟩ "r" "f" false
        ⟨none, InsertRes.fail "boom", none, true⟩).1.threw = true ∧
    ((saveDoc ⟨"x", "", [], true⟩ "r" "f" false
        ⟨none, InsertRes.fail "boom", none, true⟩).2.content =
      (⟨"x", "", [], true⟩ : ClientState).content ∧
    (saveDoc ⟨"x", "", [], true⟩ "r" "f" false
        ⟨none, InsertRes.fail "boom", none, true⟩).2.lastSaved =
      (⟨"x", "", [], true⟩ : ClientState).content ∧
    (saveDoc (saveDoc ⟨"x", "", [], true⟩ "r" "f" false
        ⟨none, InsertRes.fail "boom", none, true⟩).2 "r" "f" false
        ⟨none, InsertRes.ok "id1", none, true⟩).1.writes = [] ∧
    (∀ st2 : ClientState, st2.content = st2.lastSaved →
      (saveDoc st2 "r" "f" false
        ⟨none, InsertRes.ok "id1", none, true⟩).1.writes = [])) :=
  ⟨by decide, c5_skip_relative_to_attempt ⟨"x", "", [], true⟩ "r" "f" false
    ⟨none, InsertRes.fail "boom", none, true⟩
    ⟨none, InsertRes.ok "id1", none, true⟩ (by decide)⟩

/-- C5 (counterexample to the claim as stated): with content "x" unsaved, the
save attempt fails and an error is surfaced, the in-memory document still
holds "x", yet the next debounced save with that same still-unsaved content
performs no write — even against a database that would now accept it — where
the claim requires a write (a retry). -/
theorem c5_counterexample :
    (saveDoc ⟨"x", "", [], true⟩ "r" "f" false
        ⟨none, InsertRes.fail "boom", none, true⟩).1.threw = true ∧
    (saveDoc ⟨"x", "", [], true⟩ "r" "f" false
        ⟨none, InsertRes.fail "boom", none, true⟩).1.surfaced ≠ none ∧
    (saveDoc ⟨"x", "", [], true⟩ "r" "f" false
        ⟨none, InsertRes.fail "boom", none, true⟩).2.content = "x" ∧
    (saveDoc (saveDoc ⟨"x", "", [], true⟩ "r" "f" false
        ⟨none, InsertRes.fail "boom", none, true⟩).2 "r" "f" false
        ⟨none, InsertRes.ok "id1", none, true⟩).1.writes = [] := by
  decide

/-- C6: first-save uniqueness races recover without error: with no cached id,
no record found by the first lookup, an insert failing with a uniqueness
conflict, a successful re-fetch of the concurrently created record and a
successful update, the save updates that record with the current content,
caches its id, and completes with no surfaced error and no thrown promise. -/
theorem c6_first_save_race_recovery (st : ClientState) (rm file : String)
    (force : Bool) (db : DBOracle) (rid : String)
    (hm : st.mounted = true) (hf : file ≠ "")
    (ht : isBlank st.content = false) (hch : st.content ≠ st.lastSaved)
    (hcache : alLookup (rm ++ ":" ++ file) st.cache = none)
    (hfind : db.find1 = none) (hdup : db.insertRes = InsertRes.dup)
    (hre : db.find2 = some rid) (hupd : db.updateOk = true) :
    (saveDoc st rm file force db).1.surfaced = none ∧
    (saveDoc st rm file force db).1.threw = false ∧
    WriteOp.updateW rid st.content ∈ (saveDoc st rm file force db).1.writes ∧
    alLookup (rm ++ ":" ++ file) (saveDoc st rm file force db).2.cache =
      some rid := by
  unfold saveDoc
  rw [if_neg (by simp [hm, hf]), if_neg (by rw [ht]; rintro ⟨_, hc⟩; cases hc),
    if_neg (fun hc => hch hc.2)]
  dsimp only
  simp [hcache, hfind, hdup, hre, hupd]

/-- Witness for C6 at a concrete racing first save. -/
theorem c6_first_save_race_recovery_witness :
    (saveDoc ⟨"hello", "", [], true⟩ "r" "f" false
        ⟨none, InsertRes.dup, some "id7", true⟩).1.surfaced = none ∧
    (saveDoc ⟨"hello", "", [], true⟩ "r" "f" false
        ⟨none, InsertRes.dup, some "id7", true⟩).1.threw = false ∧
    WriteOp.updateW "id7" (⟨"hello", "", [], true⟩ : ClientState).content ∈
      (saveDoc ⟨"hello", "", [], true⟩ "r" "f" false
        ⟨none, InsertRes.dup, some "id7", true⟩).1.writes ∧
    alLookup ("r" ++ ":" ++ "f")
      (saveDoc ⟨"hello", "", [], true⟩ "r" "f" false
        ⟨none, InsertRes.dup, some "id7", true⟩).2.cache = some "id7" :=
  c6_first_save_race_recovery ⟨"hello", "", [], true⟩ "r" "f" false
    ⟨none, InsertRes.dup, some "id7", true⟩ "id7" rfl (by decide) (by decide)
    (by decide) rfl rfl rfl rfl rfl

/-- C7 (amended): at client teardown, if the current content is NONEMPTY and
differs from the content of the last save attempt, the cleanup closure runs a
forced save — which, for a mounted client with a file name, always issues a
write — before finishing; content that is empty or equal to the last attempt
is not cleanup-saved. -/
theorem c7_cleanup_forced_save (st : ClientState) (rm file : String)
    (db : DBOracle) (connected : Bool)
    (hne : st.content ≠ "") (hch : st.content ≠ st.lastSaved)
    (hm : st.mounted = true) (hf : file ≠ "") :
    (cleanup st rm file db connected).save =
      some (saveDoc st rm file true db) ∧
    (saveDoc st rm file true db).1.writes ≠ [] := by
  constructor
  · unfold cleanup
    rw [if_pos ⟨hne, hch⟩]
  · unfold saveDoc
    rw [if_neg (by simp [hm, hf]), if_neg (by simp), if_neg (by simp)]
    dsimp only
    repeat' split
    all_goals simp

/-- Witness for C7 (amended) at a concrete teardown with unsaved content. -/
theorem c7_cleanup_forced_save_witness :
    (cleanup ⟨"ab", "", [], true⟩ "r" "f"
        ⟨none, InsertRes.ok "id1", none, true⟩ true).save =
      some (saveDoc ⟨"ab", "", [], true⟩ "r" "f" true
        ⟨none, InsertRes.ok "id1", none, true⟩) ∧
    (saveDoc ⟨"ab", "", [], true⟩ "r" "f" true
        ⟨none, InsertRes.ok "id1", none, true⟩).1.writes ≠ [] :=
  c7_cleanup_forced_save ⟨"ab", "", [], true⟩ "r" "f"
    ⟨none, InsertRes.ok "id1", none, true⟩ true (by decide) (by decide) rfl
    (by decide)

/-- C7 (counterexample to the claim as stated): the document was emptied
after "abc" was saved — the content differs from the last successfully saved
snapshot — yet the teardown closure attempts no save at all, because its
guard also requires the content to be nonempty. -/
theorem c7_counterexample :
    ("" : String) ≠ "abc" ∧
    (cleanup ⟨"", "abc", [], true⟩ "r" "f"
      ⟨none, InsertRes.dup, none, true⟩ true).save = none := by
  decide

/-- C10: non-forced saves never persist an emptied document: when the current
content is empty or whitespace-only, a non-forced save issues no write
request and returns with the client state untouched (so the persisted record
for `(room, title)` is unchanged), and any save that does issue a write with
such content must be a forced save. -/
theorem c10_nonforced_never_writes_empty (st : ClientState) (rm file : String)
    (db : DBOracle) (h : isBlank st.content = true) :
    (saveDoc st rm file false db).1.writes = [] ∧
    (saveDoc st rm file false db).2 = st ∧
    (∀ force db', (saveDoc st rm file force db').1.writes ≠ [] →
      force = true) := by
  have hskip : ∀ db' : DBOracle, (saveDoc st rm file false db').1.writes = [] ∧
      (saveDoc st rm file false db').2 = st := by
    intro db'
    unfold saveDoc
    by_cases h1 : st.mounted = false ∨ file = ""
    · rw [if_pos h1]
      exact ⟨rfl, rfl⟩
    · rw [if_neg h1, if_pos ⟨rfl, h⟩]
      exact ⟨rfl, rfl⟩
  refine ⟨(hskip db).1, (hskip db).2, ?_⟩
  intro force db' hw
  cases force with
  | true => rfl
  | false => exact absurd (hskip db').1 hw

/-- Witness for C10 at a concrete whitespace-only document. -/
theorem c10_nonforced_never_writes_empty_witness :
    (isBlank "  " = true) ∧
    ((saveDoc ⟨"  ", "x", [], true⟩ "r" "f" false
        ⟨none, InsertRes.dup, none, true⟩).1.writes = [] ∧
    (saveDoc ⟨"  ", "x", [], true⟩ "r" "f" false
        ⟨none, InsertRes.dup, none, true⟩).2 = ⟨"  ", "x", [], true⟩ ∧
    (∀ force db', (saveDoc ⟨"  ", "x", [], true⟩ "r" "f" force db').1.writes ≠ [] →
      force = true)) :=
  ⟨by decide, c10_nonforced_never_writes_empty ⟨"  ", "x", [], true⟩ "r" "f"
    ⟨none, InsertRes.dup, none, true⟩ (by decide)⟩

/-! ## Replicated document

Modelled from the spec: the replicated-document merge (`Y.applyUpdate` and
the yjs CRDT it implements) is external library code, not under `src/`.
Spec sections 3, 4.1 and 8 and the glossary specify it: operations are opaque
encoded deltas; `applyRemoteOperation` must be idempotent and commutative
(safe with duplicates and any order); merge of replica states is commutative,
associative and idempotent; and the materialized content is a deterministic
function of the operations received, with interleaving decided by
operation-id tie-break.  Operations are modelled as opaque encoded values
(naturals standing for the encoded bytes); a replica state is the set of
operations it has received; content renders the operations in id order. -/

/-- Modelled from the spec: merging one received encoded operation into a
replica state; applying an operation already present is absorbed. -/
def applyRemoteOperation (op : Nat) (rep : Finset Nat) : Finset Nat :=
  insert op rep

/-- Modelled from the spec: merging two full replica states
(`encodeFullState` / `loadFullState` exchange) is the union of their
operation sets. -/
def mergeStates (a b : Finset Nat) : Finset Nat := a ∪ b

/-- Apply a stream of received operations in arrival order. -/
def applyOps (ops : List Nat) (rep : Finset Nat) : Finset Nat :=
  ops.foldl (fun s u => applyRemoteOperation u s) rep

/-- Modelled from the spec: the materialized content string is a function of
the operation set alone, rendering operations in operation-id order (spec §8:
interleaving decided by operation-id tie-break). -/
def contentOf (rep : Finset Nat) : String :=
  String.join ((rep.sort (· ≤ ·)).map (fun op => toString op))

theorem applyOps_toFinset (ops : List Nat) (rep : Finset Nat) :
    applyOps ops rep = rep ∪ ops.toFinset := by
  induction ops generalizing rep with
  | nil => simp [applyOps]
  | cons a rest ih =>
    have hstep : applyOps (a :: rest) rep =
        applyOps rest (insert a rep) := rfl
    rw [hstep, ih]
    ext x
    simp [Finset.mem_union, Finset.mem_insert]
    try tauto

/-- C8: Replica convergence: two replicas of the same file that apply the
same multiset of encoded operations — any order, arbitrary duplicates, i.e.
any two operation streams with the same underlying operation set — starting
from a common state, materialize equal content strings; and the merge is
commutative and idempotent per operation, and commutative, associative and
idempotent on whole replica states. -/
theorem c8_replica_convergence (l1 l2 : List Nat) (rep : Finset Nat)
    (h : l1.toFinset = l2.toFinset) :
    contentOf (applyOps l1 rep) = contentOf (applyOps l2 rep) ∧
    (∀ a b (s : Finset Nat), applyRemoteOperation a (applyRemoteOperation b s) =
      applyRemoteOperation b (applyRemoteOperation a s)) ∧
    (∀ a (s : Finset Nat), applyRemoteOperation a (applyRemoteOperation a s) =
      applyRemoteOperation a s) ∧
    (∀ s t u : Finset Nat,
      mergeStates (mergeStates s t) u = mergeStates s (mergeStates t u)) ∧
    (∀ s t : Finset Nat, mergeStates s t = mergeStates t s) ∧
    (∀ s : Finset Nat, mergeStates s s = s) := by
  refine ⟨?_, ?_, ?_, ?_, ?_, ?_⟩
  · rw [applyOps_toFinset, applyOps_toFinset, h]
  · intro a b s
    unfold applyRemoteOperation
    exact Finset.Insert.comm a b s
  · intro a s
    unfold applyRemoteOperation
    exact Finset.insert_idem a s
  · intro s t u
    unfold mergeStates
    exact Finset.union_assoc s t u
  · intro s t
    unfold mergeStates
    exact Finset.union_comm s t
  · intro s
    unfold mergeStates
    exact Finset.union_self s

/-- Witness for C8 with two concrete streams: same operations, different
order, duplicates on one side. -/
theorem c8_replica_convergence_witness :
    ([1, 2, 2] : List Nat).toFinset = ([2, 1] : List Nat).toFinset ∧
    (contentOf (applyOps [1, 2, 2] ∅) = contentOf (applyOps [2, 1] ∅) ∧
    (∀ a b (s : Finset Nat), applyRemoteOperation a (applyRemoteOperation b s) =
      applyRemoteOperation b (applyRemoteOperation a s)) ∧
    (∀ a (s : Finset Nat), applyRemoteOperation a (applyRemoteOperation a s) =
      applyRemoteOperation a s) ∧
    (∀ s t u : Finset Nat,
      mergeStates (mergeStates s t) u = mergeStates s (mergeStates t u)) ∧
    (∀ s t : Finset Nat, mergeStates s t = mergeStates t s) ∧
    (∀ s : Finset Nat, mergeStates s s = s)) :=
  ⟨by decide, c8_replica_convergence [1, 2, 2] [2, 1] ∅ (by decide)⟩

end DropVault
